import Mathlib

/-!
Verification of the dependency-graph construction and analysis engine of
`dependency_visualizer.py`: the source-adapter lookups, the two traversal
strategies of the graph builder, the reverse-dependency index, adjacency-file
validation, and the Graphviz exporters.  Python dictionaries are embedded as
insertion-ordered association lists, Python sets as lists with membership,
exceptions as `Except`, and the (terminating, but not structurally so)
traversals are given an explicit fuel parameter: a run that returns `some`
corresponds exactly to a completed Python run.
-/

namespace DepViz

/-- First value bound to a key in an association list
(Python `dict[k]` / `dict.get(k)`). -/
def alookup {α : Type} (l : List (String × α)) (k : String) : Option α :=
  match l with
  | [] => none
  | (k1, v) :: rest => if k1 = k then some v else alookup rest k

/-- Python `dict[k] = v`: replace the value in place if the key is present
(keeping its position), append a new binding otherwise. -/
def setKey {α : Type} (l : List (String × α)) (k : String) (v : α) :
    List (String × α) :=
  match l with
  | [] => [(k, v)]
  | (k1, v1) :: rest =>
      if k1 = k then (k, v) :: rest else (k1, v1) :: setKey rest k v

/-- The keys of an association list, in order. -/
def keysOf {α : Type} (l : List (String × α)) : List String := l.map Prod.fst

/-- One entry of `self.dependency_graph`: the node's dependency mapping
(name → version constraint), its traversal level, and the optional
`'error'` field. -/
structure NodeRecord where
  dependencies : List (String × String)
  level : Nat
  error : Option String
deriving DecidableEq, Repr

/-- The dependency names of a node record (`info['dependencies']` keys). -/
def depKeys (n : NodeRecord) : List String := n.dependencies.map Prod.fst

/-- The mutable build-session state: `self.dependency_graph`,
`self.visited_packages` and the local `cycles_detected` list. -/
structure BuildState where
  graph : List (String × NodeRecord)
  visited : List String
  cycles : List (List String)
deriving DecidableEq, Repr

/-- The state at the start of `build_dependency_graph_bfs`: everything reset
to empty. -/
def initialBuildState : BuildState := ⟨[], [], []⟩

/-- Cycle normalization: drop repeated names keeping the first occurrence
(the `normalized_cycle` loop). -/
def normalizeCycle (cycle : List String) : List String :=
  cycle.foldl (fun acc n => if n ∈ acc then acc else acc ++ [n]) []

/-- Python `path[path.index(package):]`: the suffix of `path` starting at the first
occurrence of `package`. -/
def dropBefore (package : String) : List String → List String
  | [] => []
  | x :: rest => if x = package then x :: rest else dropBefore package rest

/-- Record a normalized cycle unless an identical one is already recorded. -/
def recordCycle (cycles : List (List String)) (nc : List String) :
    List (List String) :=
  if nc ∈ cycles then cycles else cycles ++ [nc]

/-- Embedding of `_build_graph_bfs_recursive`: the per-call traversal (local-manifest-tree
and remote-registry modes).  `fetch` is the source adapter
(`get_direct_dependencies`); an adapter failure is an `Except.error`.
`fuel` bounds the recursion depth; `none` means the fuel ran out (never the
case for the finite runs the Python program performs). -/
def buildGraphBfsRecursive (fetch : String → Except String (List (String × String))) :
    Nat → String → List String → BuildState → Option BuildState
  | 0, _, _, _ => none
  | fuel + 1, package, path, st =>
    if package ∈ st.visited then
      if package ∈ path then
        let nc := normalizeCycle (dropBefore package path)
        some { st with cycles := recordCycle st.cycles nc }
      else
        some st
    else
      let visited1 := package :: st.visited
      let currentPath := path ++ [package]
      match fetch package with
      | Except.ok dependencies =>
          let st1 : BuildState :=
            { graph := setKey st.graph package
                ⟨dependencies, currentPath.length - 1, none⟩,
              visited := visited1, cycles := st.cycles }
          (dependencies.map Prod.fst).foldlM
            (fun s d => buildGraphBfsRecursive fetch fuel d currentPath s) st1
      | Except.error e =>
          some { graph := setKey st.graph package
                   ⟨[], currentPath.length - 1, some e⟩,
                 visited := visited1, cycles := st.cycles }

/-- Embedding of `_build_graph_from_file_bfs`: the queue-based traversal for the
adjacency-file mode.  The queue holds `(package, level, path)` triples;
`fuel` bounds the number of dequeue steps. -/
def buildGraphFromFileBfs (fileGraph : List (String × List String)) :
    Nat → List (String × Nat × List String) → BuildState → Option BuildState
  | _, [], st => some st
  | 0, _ :: _, _ => none
  | fuel + 1, (package, level, path) :: queue, st =>
    if package ∈ st.visited then
      let st1 :=
        if package ∈ path then
          let nc := normalizeCycle (dropBefore package path)
          { st with cycles := recordCycle st.cycles nc }
        else st
      buildGraphFromFileBfs fileGraph fuel queue st1
    else
      let visited1 := package :: st.visited
      let currentPath := path ++ [package]
      match alookup fileGraph package with
      | some deps =>
          let st1 : BuildState :=
            { graph := setKey st.graph package
                ⟨deps.map (fun d => (d, "*")), level, none⟩,
              visited := visited1, cycles := st.cycles }
          buildGraphFromFileBfs fileGraph fuel
            (queue ++ deps.map (fun d => (d, level + 1, currentPath))) st1
      | none =>
          let st1 : BuildState :=
            { graph := setKey st.graph package
                ⟨[], level, some ("Пакет " ++ package ++ " не найден в графе")⟩,
              visited := visited1, cycles := st.cycles }
          buildGraphFromFileBfs fileGraph fuel queue st1

/-- One step of the inner loop of `_build_reverse_dependencies`: ensure the
bucket for `dep` exists, then append `package` to it unless already present. -/
def addToBucket (rd : List (String × List String)) (dep package : String) :
    List (String × List String) :=
  match alookup rd dep with
  | none => rd ++ [(dep, [package])]
  | some bucket =>
      if package ∈ bucket then rd else setKey rd dep (bucket ++ [package])

/-- Embedding of `_build_reverse_dependencies`: invert the dependency graph into a mapping
from package name to the ordered, duplicate-free list of packages that
directly depend on it. -/
def buildReverseDependencies (graph : List (String × NodeRecord)) :
    List (String × List String) :=
  graph.foldl
    (fun rd e => e.2.dependencies.foldl (fun rd2 dep => addToBucket rd2 dep.1 e.1) rd)
    []

/-- The reverse-index bucket for a name (`self.reverse_dependencies.get(d, [])`). -/
def bucketOf (rd : List (String × List String)) (d : String) : List String :=
  (alookup rd d).getD []

/-- Embedding of `get_direct_dependencies` in `graph_file` mode, after the adjacency file
has been loaded successfully: a present key yields its dependency names each
paired with the wildcard constraint, an absent key yields the empty mapping. -/
def getDirectDependenciesGraphFile (fileGraph : List (String × List String))
    (packageName : String) : Except String (List (String × String)) :=
  match alookup fileGraph packageName with
  | some deps => Except.ok (deps.map (fun d => (d, "*")))
  | none => Except.ok []

/-- Lexicographic comparison of character lists by code point — the order
Python uses to compare strings. -/
def charListLe : List Char → List Char → Bool
  | [], _ => true
  | _ :: _, [] => false
  | a :: as, b :: bs => if a = b then charListLe as bs else decide (a < b)

/-- Python's string `<=`: code-point lexicographic order on the characters. -/
def strLe (a b : String) : Bool := charListLe a.data b.data

/-- Embedding of `_find_version_with_dependencies`.  Here `latest` is
`package_info.get("dist-tags", {}).get("latest")`; `versions` maps each
version string to its dependency mapping (an absent `"dependencies"` field and
an empty one are both the empty list, matching Python falsiness).  Python's
`sorted(versions.keys(), reverse=True)` is the stable descending
lexicographic sort. -/
def findVersionWithDependencies (latest : Option String)
    (versions : List (String × List (String × String))) : Option String :=
  let latestOk : Option String :=
    match latest with
    | some s => if s = "" then none else some s
    | none => none
  let step1 : Option String :=
    match latestOk with
    | some l =>
        match alookup versions l with
        | some deps => if deps.isEmpty then none else some l
        | none => none
    | none => none
  match step1 with
  | some v => some v
  | none =>
      let sortedVersions :=
        (versions.map Prod.fst).mergeSort (fun a b => strLe b a)
      match sortedVersions.find?
          (fun v => !((alookup versions v).getD []).isEmpty) with
      | some v => some v
      | none =>
          match latestOk with
          | some l =>
              if l ∈ versions.map Prod.fst then some l else sortedVersions.head?
          | none => sortedVersions.head?

/-- A JSON value, the shape `json.load` can produce. -/
inductive JsonValue where
  | null : JsonValue
  | bool : Bool → JsonValue
  | num : Int → JsonValue
  | str : String → JsonValue
  | arr : List JsonValue → JsonValue
  | obj : List (String × JsonValue) → JsonValue

/-- The per-value validation inside `_load_graph_from_file`: a value must be a
list whose elements are all strings. -/
def validateDeps (package : String) : JsonValue → Except String (List String)
  | JsonValue.arr elems =>
      elems.mapM (fun e =>
        match e with
        | JsonValue.str s => Except.ok s
        | _ => Except.error ("Зависимости должны быть строками в пакете " ++ package))
  | _ => Except.error ("Зависимости для пакета " ++ package ++ " должны быть списком")

/-- Embedding of `_load_graph_from_file` after a successful JSON parse: the top-level value
must be an object and each value a list of strings, otherwise a `GraphError`
(`Except.error`) is raised. -/
def loadGraphFromFile : JsonValue → Except String (List (String × List String))
  | JsonValue.obj fields =>
      fields.mapM (fun f => (validateDeps f.1 f.2).map (fun deps => (f.1, deps)))
  | _ => Except.error "Файл графа должен содержать JSON объект"

/-- Embedding of `build_dependency_graph_bfs` in `graph_file` mode: load and validate the
whole adjacency file, then run the queue-based traversal; a `GraphError`
propagates and no graph state is produced. -/
def buildDependencyGraphBfsGraphFile (root : String) (j : JsonValue) (fuel : Nat) :
    Except String (Option BuildState) :=
  match loadGraphFromFile j with
  | Except.error e => Except.error e
  | Except.ok fg =>
      Except.ok (buildGraphFromFileBfs fg fuel [(root, 0, [])] initialBuildState)

/-- Whether a computation raised (`Except.error`). -/
def isError {β : Type} : Except String β → Bool
  | Except.error _ => true
  | Except.ok _ => false

/-- The style attribute string chosen for a node in `generate_graphviz`. -/
def nodeStyle (rootPackage package : String) (info : NodeRecord) : String :=
  if package = rootPackage then
    "shape=ellipse, style=filled, fillcolor=orange, fontsize=12"
  else if info.error.isSome then
    "style=filled, fillcolor=lightcoral, fontsize=10"
  else if info.dependencies.isEmpty then
    "style=filled, fillcolor=lightgreen, fontsize=10"
  else
    "style=filled, fillcolor=lightblue, fontsize=10"

/-- The node-declaration lines of `generate_graphviz`, one per graph entry. -/
def nodeDeclLines (graph : List (String × NodeRecord)) (rootPackage : String) :
    List String :=
  graph.map (fun e =>
    "    \"" ++ e.1 ++ "\" [" ++ nodeStyle rootPackage e.1 e.2 ++ "];")

/-- The edge-declaration lines of `generate_graphviz`: one per
(package, dependency) pair, skipping an exact pair already emitted
(the `edges_added` set). -/
def edgeDeclLines (graph : List (String × NodeRecord)) : List String :=
  (graph.foldl
    (fun acc e =>
      e.2.dependencies.foldl
        (fun acc2 dep =>
          let edge := "\"" ++ e.1 ++ "\" -> \"" ++ dep.1 ++ "\""
          if edge ∈ acc2.2 then acc2
          else (acc2.1 ++ ["    " ++ edge ++ ";"], acc2.2 ++ [edge]))
        acc)
    (([], []) : List String × List String)).1

/-- Embedding of `generate_graphviz`: the annotated DOT export.  Returns the empty string
for an unbuilt (empty) graph. -/
def generateGraphviz (graph : List (String × NodeRecord)) (rootPackage : String) :
    String :=
  if graph.isEmpty then ""
  else
    let header : List String :=
      ["digraph DependencyGraph \x7b",
       "    rankdir=TB;",
       "    node [shape=box, style=filled, fillcolor=lightblue, fontname=Arial];",
       "    edge [color=darkgreen, fontname=Arial];",
       "    graph [fontname=Arial];",
       "",
       "    label=\"Граф зависимостей для " ++ rootPackage ++ "\";",
       "    labelloc=t;",
       "    fontsize=16;",
       ""]
    String.intercalate "\n"
      (header ++ nodeDeclLines graph rootPackage ++ [""]
        ++ ["    // Зависимости между пакетами"] ++ edgeDeclLines graph
        ++ ["\x7d"])

/-- The edge lines of `generate_simple_graphviz`: every (package, dependency)
pair in graph order, no de-duplication. -/
def simpleEdgeLines (graph : List (String × NodeRecord)) : List String :=
  graph.foldl
    (fun acc e =>
      acc ++ e.2.dependencies.map
        (fun dep => "    \"" ++ e.1 ++ "\" -> \"" ++ dep.1 ++ "\";"))
    []

/-- Embedding of `generate_simple_graphviz`: the simplified, edges-only DOT export.
Returns the empty string for an unbuilt (empty) graph. -/
def generateSimpleGraphviz (graph : List (String × NodeRecord))
    (rootPackage : String) : String :=
  if graph.isEmpty then ""
  else
    String.intercalate "\n"
      (["digraph G \x7b",
        "    rankdir=LR;",
        "    node [shape=box];",
        "    label=\"Dependencies for " ++ rootPackage ++ "\";",
        ""]
       ++ simpleEdgeLines graph ++ ["\x7d"])

theorem charListLe_refl : ∀ l : List Char, charListLe l l = true
  | [] => rfl
  | a :: as => by simp [charListLe, charListLe_refl as]

theorem charListLe_total : ∀ a b : List Char,
    (charListLe a b || charListLe b a) = true
  | [], _ => by simp [charListLe]
  | _ :: _, [] => by simp [charListLe]
  | a :: as, b :: bs => by
    by_cases hab : a = b
    · subst hab
      simpa [charListLe] using charListLe_total as bs
    · rcases lt_or_gt_of_ne hab with h | h
      · simp [charListLe, hab, h]
      · simp [charListLe, hab, Ne.symm hab, h]

theorem charListLe_trans : ∀ a b c : List Char,
    charListLe a b = true → charListLe b c = true → charListLe a c = true
  | [], _, _, _, _ => rfl
  | _ :: _, [], _, h1, _ => by simp [charListLe] at h1
  | _ :: _, _ :: _, [], _, h2 => by simp [charListLe] at h2
  | a :: as, b :: bs, c :: cs, h1, h2 => by
    simp only [charListLe] at h1 h2 ⊢
    by_cases hab : a = b
    · subst hab
      by_cases hac : a = c
      · subst hac
        simp only [if_pos rfl] at h1 h2 ⊢
        exact charListLe_trans as bs cs h1 h2
      · simpa [hac] using h2
    · simp only [if_neg hab, decide_eq_true_eq] at h1
      by_cases hbc : b = c
      · subst hbc
        simp [hab, h1]
      · simp only [if_neg hbc, decide_eq_true_eq] at h2
        have hac : a < c := lt_trans h1 h2
        simp [ne_of_lt hac, hac]

theorem strLe_refl (a : String) : strLe a a = true := charListLe_refl a.data

theorem strLe_total (a b : String) : (strLe a b || strLe b a) = true :=
  charListLe_total a.data b.data

theorem strLe_trans (a b c : String) :
    strLe a b = true → strLe b c = true → strLe a c = true :=
  charListLe_trans a.data b.data c.data

theorem alookup_mem {α : Type} : ∀ (l : List (String × α)) (k : String) (v : α),
    alookup l k = some v → (k, v) ∈ l
  | [], _, _, h => by simp [alookup] at h
  | (k1, v1) :: rest, k, v, h => by
    by_cases hk : k1 = k
    · subst hk
      simp [alookup] at h
      subst h
      exact List.mem_cons_self _ _
    · simp only [alookup, if_neg hk] at h
      exact List.mem_cons_of_mem _ (alookup_mem rest k v h)

theorem alookup_mem_keys {α : Type} (l : List (String × α)) (k : String) (v : α)
    (h : alookup l k = some v) : k ∈ keysOf l :=
  List.mem_map_of_mem Prod.fst (alookup_mem l k v h)

theorem alookup_setKey_self {α : Type} :
    ∀ (l : List (String × α)) (k : String) (v : α),
      alookup (setKey l k v) k = some v
  | [], k, v => by simp [setKey, alookup]
  | (k1, v1) :: rest, k, v => by
    by_cases hk : k1 = k
    · simp [setKey, hk, alookup]
    · simp [setKey, hk, alookup, alookup_setKey_self rest k v]

theorem alookup_setKey_ne {α : Type} :
    ∀ (l : List (String × α)) (k : String) (v : α) (q : String), q ≠ k →
      alookup (setKey l k v) q = alookup l q
  | [], k, v, q, hq => by simp [setKey, alookup, Ne.symm hq]
  | (k1, v1) :: rest, k, v, q, hq => by
    by_cases hk : k1 = k
    · subst hk
      simp [setKey, alookup, Ne.symm hq]
    · simp only [setKey, if_neg hk, alookup]
      by_cases hq1 : k1 = q
      · simp [hq1]
      · simp [hq1, alookup_setKey_ne rest k v q hq]

theorem setKey_not_mem_eq_append {α : Type} :
    ∀ (l : List (String × α)) (k : String) (v : α), k ∉ keysOf l →
      setKey l k v = l ++ [(k, v)]
  | [], k, v, _ => rfl
  | (k1, v1) :: rest, k, v, h => by
    have hk : k1 ≠ k := by
      intro he
      exact h (by simp [keysOf, he])
    have hr : k ∉ keysOf rest := by
      intro hm
      exact h (by simp [keysOf] at hm ⊢; exact Or.inr hm)
    simp [setKey, hk, setKey_not_mem_eq_append rest k v hr]

/-- The invariant every state reachable inside a build satisfies: the visited
set and the set of graph keys coincide, and the graph holds exactly one
record per package name. -/
def GoodState (st : BuildState) : Prop :=
  (∀ q ∈ keysOf st.graph, q ∈ st.visited) ∧
  (∀ q ∈ st.visited, q ∈ keysOf st.graph) ∧
  (keysOf st.graph).Nodup

/-- Every dependency name recorded in the graph so far is either already
visited or still pending in `ds`. -/
def AlmostClosed (st : BuildState) (ds : List String) : Prop :=
  ∀ e ∈ st.graph, ∀ d ∈ depKeys e.2, d ∈ st.visited ∨ d ∈ ds

theorem goodState_insert (st : BuildState) (p : String) (n : NodeRecord)
    (c : List (List String)) (h : GoodState st) (hp : p ∉ st.visited) :
    GoodState ⟨setKey st.graph p n, p :: st.visited, c⟩ := by
  have hpk : p ∉ keysOf st.graph := fun hk => hp (h.1 p hk)
  have hset : setKey st.graph p n = st.graph ++ [(p, n)] :=
    setKey_not_mem_eq_append st.graph p n hpk
  refine ⟨?_, ?_, ?_⟩
  · intro q hq
    simp only [hset, keysOf, List.map_append] at hq
    rcases List.mem_append.mp hq with hq | hq
    · exact List.mem_cons_of_mem _ (h.1 q hq)
    · simp at hq
      simp [hq]
  · intro q hq
    simp only [hset, keysOf, List.map_append]
    rcases List.mem_cons.mp hq with rfl | hq
    · simp
    · exact List.mem_append.mpr (Or.inl (h.2.1 q hq))
  · simp only [hset, keysOf, List.map_append]
    rw [List.nodup_append]
    exact ⟨h.2.2, by simp, by
      intro q hq
      simp only [List.map_cons, List.map_nil, List.mem_singleton]
      intro he
      exact hpk (he ▸ hq)⟩

theorem alookup_insert_preserve (st : BuildState) (p : String) (n : NodeRecord)
    (h : GoodState st) (hp : p ∉ st.visited) (q : String) (v : NodeRecord)
    (hq : alookup st.graph q = some v) :
    alookup (setKey st.graph p n) q = some v := by
  have hqk : q ∈ st.visited := h.1 q (alookup_mem_keys _ _ _ hq)
  have hqp : q ≠ p := fun he => hp (he ▸ hqk)
  rw [alookup_setKey_ne st.graph p n q hqp]
  exact hq

theorem mem_setKey_fresh {α : Type} (l : List (String × α)) (k : String) (v : α)
    (hk : k ∉ keysOf l) (e : String × α) (he : e ∈ setKey l k v) :
    e ∈ l ∨ e = (k, v) := by
  rw [setKey_not_mem_eq_append l k v hk] at he
  rcases List.mem_append.mp he with he | he
  · exact Or.inl he
  · simp at he
    exact Or.inr he

/-- The statement of the joint invariant for one fuel level of the recursive
traversal: a completed call preserves the state invariant, keeps pending
closedness, marks its package visited, grows the visited set monotonically,
and never changes a record already present (first discovery wins). -/
def RecStmt (fuel : Nat) : Prop :=
  ∀ (fetch : String → Except String (List (String × String)))
    (package : String) (path : List String) (st st' : BuildState)
    (ds : List String),
    GoodState st → AlmostClosed st ds →
    buildGraphBfsRecursive fetch fuel package path st = some st' →
    GoodState st' ∧ AlmostClosed st' ds ∧ package ∈ st'.visited ∧
    (∀ q ∈ st.visited, q ∈ st'.visited) ∧
    (∀ q v, alookup st.graph q = some v → alookup st'.graph q = some v)

/-- The invariant lifted through the fold over a dependency list. -/
theorem depsStep (fuel : Nat) (hrec : RecStmt fuel)
    (fetch : String → Except String (List (String × String))) :
    ∀ (l : List String) (path : List String) (st st' : BuildState)
      (ds : List String),
      GoodState st → AlmostClosed st (l ++ ds) →
      l.foldlM (fun s d => buildGraphBfsRecursive fetch fuel d path s) st =
        some st' →
      GoodState st' ∧ AlmostClosed st' ds ∧ (∀ d ∈ l, d ∈ st'.visited) ∧
      (∀ q ∈ st.visited, q ∈ st'.visited) ∧
      (∀ q v, alookup st.graph q = some v → alookup st'.graph q = some v) := by
  intro l
  induction l with
  | nil =>
    intro path st st' ds hG hA hb
    simp only [List.foldlM_nil] at hb
    have hb2 : st = st' := by simpa using hb
    subst hb2
    exact ⟨hG, hA, by simp, fun q hq => hq, fun q v hv => hv⟩
  | cons d rest ihl =>
    intro path st st' ds hG hA hb
    rw [List.foldlM_cons] at hb
    rcases h1 : buildGraphBfsRecursive fetch fuel d path st with _ | st1
    · rw [h1] at hb
      simp at hb
    · rw [h1] at hb
      simp only [Option.bind_eq_bind, Option.some_bind] at hb
      obtain ⟨G1, A1, hd1, mono1, pres1⟩ :=
        hrec fetch d path st st1 ((d :: rest) ++ ds) hG hA h1
      have A1w : AlmostClosed st1 (rest ++ ds) := by
        intro e he d2 hd2
        rcases A1 e he d2 hd2 with h | h
        · exact Or.inl h
        · rcases List.mem_cons.mp h with rfl | h
          · exact Or.inl hd1
          · exact Or.inr h
      obtain ⟨G2, A2, hall2, mono2, pres2⟩ := ihl path st1 st' ds G1 A1w hb
      refine ⟨G2, A2, ?_, fun q hq => mono2 q (mono1 q hq),
        fun q v hv => pres2 q v (pres1 q v hv)⟩
      intro x hx
      rcases List.mem_cons.mp hx with rfl | hx
      · exact mono2 x hd1
      · exact hall2 x hx

/-- The joint invariant holds at every fuel level. -/
theorem recStmt_all : ∀ fuel : Nat, RecStmt fuel := by
  intro fuel
  induction fuel with
  | zero =>
    intro fetch package path st st' ds hG hA hb
    simp [buildGraphBfsRecursive] at hb
  | succ fuel ih =>
    intro fetch package path st st' ds hG hA hb
    by_cases hvis : package ∈ st.visited
    · by_cases hpath : package ∈ path
      · simp only [buildGraphBfsRecursive, if_pos hvis, if_pos hpath,
          Option.some.injEq] at hb
        subst hb
        exact ⟨hG, hA, hvis, fun q hq => hq, fun q v hv => hv⟩
      · simp only [buildGraphBfsRecursive, if_pos hvis, if_neg hpath,
          Option.some.injEq] at hb
        subst hb
        exact ⟨hG, hA, hvis, fun q hq => hq, fun q v hv => hv⟩
    · have hpk : package ∉ keysOf st.graph := fun hk => hvis (hG.1 package hk)
      rcases hfetch : fetch package with e | deps
      · simp only [buildGraphBfsRecursive, if_neg hvis, hfetch,
          Option.some.injEq] at hb
        subst hb
        refine ⟨goodState_insert st package _ _ hG hvis, ?_,
          List.mem_cons_self _ _, fun q hq => List.mem_cons_of_mem _ hq,
          fun q v hv => alookup_insert_preserve st package _ hG hvis q v hv⟩
        intro e2 he2 d hd
        rcases mem_setKey_fresh st.graph package _ hpk e2 he2 with he2 | he2
        · rcases hA e2 he2 d hd with h | h
          · exact Or.inl (List.mem_cons_of_mem _ h)
          · exact Or.inr h
        · subst he2
          simp [depKeys] at hd
      · simp only [buildGraphBfsRecursive, if_neg hvis, hfetch] at hb
        have hG1 : GoodState
            ⟨setKey st.graph package
               ⟨deps, (path ++ [package]).length - 1, none⟩,
             package :: st.visited, st.cycles⟩ :=
          goodState_insert st package _ _ hG hvis
        have hA1 : AlmostClosed
            ⟨setKey st.graph package
               ⟨deps, (path ++ [package]).length - 1, none⟩,
             package :: st.visited, st.cycles⟩ ((deps.map Prod.fst) ++ ds) := by
          intro e2 he2 d hd
          rcases mem_setKey_fresh st.graph package _ hpk e2 he2 with he2 | he2
          · rcases hA e2 he2 d hd with h | h
            · exact Or.inl (List.mem_cons_of_mem _ h)
            · exact Or.inr (List.mem_append.mpr (Or.inr h))
          · subst he2
            simp only [depKeys] at hd
            exact Or.inr (List.mem_append.mpr (Or.inl hd))
        obtain ⟨G2, A2, hall2, mono2, pres2⟩ :=
          depsStep fuel ih fetch (deps.map Prod.fst) (path ++ [package]) _ st'
            ds hG1 hA1 hb
        refine ⟨G2, A2, mono2 package (List.mem_cons_self _ _),
          fun q hq => mono2 q (List.mem_cons_of_mem _ hq), fun q v hv =>
            pres2 q v (alookup_insert_preserve st package _ hG hvis q v hv)⟩

/-- The invariant for the queue-based (adjacency-file) traversal: a completed
run preserves the state invariant, closes every recorded dependency name,
grows the visited set monotonically, and never changes a record already
present. -/
theorem fileBfs_inv : ∀ (fuel : Nat) (fg : List (String × List String))
    (queue : List (String × Nat × List String)) (st st' : BuildState),
    GoodState st → AlmostClosed st (queue.map (fun t => t.1)) →
    buildGraphFromFileBfs fg fuel queue st = some st' →
    GoodState st' ∧ AlmostClosed st' [] ∧
    (∀ q ∈ st.visited, q ∈ st'.visited) ∧
    (∀ q v, alookup st.graph q = some v → alookup st'.graph q = some v) := by
  intro fuel
  induction fuel with
  | zero =>
    intro fg queue st st' hG hA hb
    cases queue with
    | nil =>
      simp only [buildGraphFromFileBfs, Option.some.injEq] at hb
      subst hb
      exact ⟨hG, by simpa using hA, fun q hq => hq, fun q v hv => hv⟩
    | cons head rest => simp [buildGraphFromFileBfs] at hb
  | succ fuel ih =>
    intro fg queue st st' hG hA hb
    cases queue with
    | nil =>
      simp only [buildGraphFromFileBfs, Option.some.injEq] at hb
      subst hb
      exact ⟨hG, by simpa using hA, fun q hq => hq, fun q v hv => hv⟩
    | cons head rest =>
      obtain ⟨p, level, path⟩ := head
      by_cases hvis : p ∈ st.visited
      · have hA0 : AlmostClosed st (rest.map (fun t => t.1)) := by
          intro e he d hd
          rcases hA e he d hd with h | h
          · exact Or.inl h
          · simp only [List.map_cons] at h
            rcases List.mem_cons.mp h with rfl | h
            · exact Or.inl hvis
            · exact Or.inr h
        by_cases hpath : p ∈ path
        · simp only [buildGraphFromFileBfs, if_pos hvis, if_pos hpath] at hb
          exact ih fg rest
            ⟨st.graph, st.visited,
             recordCycle st.cycles (normalizeCycle (dropBefore p path))⟩
            st' hG hA0 hb
        · simp only [buildGraphFromFileBfs, if_pos hvis, if_neg hpath] at hb
          exact ih fg rest st st' hG hA0 hb
      · have hpk : p ∉ keysOf st.graph := fun hk => hvis (hG.1 p hk)
        rcases halt : alookup fg p with _ | deps
        · simp only [buildGraphFromFileBfs, if_neg hvis, halt] at hb
          have hG1 : GoodState
              ⟨setKey st.graph p
                 ⟨[], level, some ("Пакет " ++ p ++ " не найден в графе")⟩,
               p :: st.visited, st.cycles⟩ :=
            goodState_insert st p _ _ hG hvis
          have hA1 : AlmostClosed
              ⟨setKey st.graph p
                 ⟨[], level, some ("Пакет " ++ p ++ " не найден в графе")⟩,
               p :: st.visited, st.cycles⟩ (rest.map (fun t => t.1)) := by
            intro e he d hd
            rcases mem_setKey_fresh st.graph p _ hpk e he with he | he
            · rcases hA e he d hd with h | h
              · exact Or.inl (List.mem_cons_of_mem _ h)
              · simp only [List.map_cons] at h
                rcases List.mem_cons.mp h with rfl | h
                · exact Or.inl (List.mem_cons_self _ _)
                · exact Or.inr h
            · subst he
              simp [depKeys] at hd
          obtain ⟨G2, A2, mono2, pres2⟩ := ih fg rest _ st' hG1 hA1 hb
          exact ⟨G2, A2,
            fun q hq => mono2 q (List.mem_cons_of_mem _ hq),
            fun q v hv =>
              pres2 q v (alookup_insert_preserve st p _ hG hvis q v hv)⟩
        · simp only [buildGraphFromFileBfs, if_neg hvis, halt] at hb
          have hG1 : GoodState
              ⟨setKey st.graph p
                 ⟨deps.map (fun d => (d, "*")), level, none⟩,
               p :: st.visited, st.cycles⟩ :=
            goodState_insert st p _ _ hG hvis
          have hA1 : AlmostClosed
              ⟨setKey st.graph p
                 ⟨deps.map (fun d => (d, "*")), level, none⟩,
               p :: st.visited, st.cycles⟩
              ((rest ++ deps.map (fun d => (d, level + 1, path ++ [p]))).map
                (fun t => t.1)) := by
            intro e he d hd
            rcases mem_setKey_fresh st.graph p _ hpk e he with he | he
            · rcases hA e he d hd with h | h
              · exact Or.inl (List.mem_cons_of_mem _ h)
              · simp only [List.map_cons] at h
                rcases List.mem_cons.mp h with rfl | h
                · exact Or.inl (List.mem_cons_self _ _)
                · exact Or.inr (by
                    simp only [List.map_append]
                    exact List.mem_append.mpr (Or.inl h))
            · subst he
              simp only [depKeys, List.map_map] at hd
              have hd2 : d ∈ deps := by simpa using hd
              refine Or.inr ?_
              simp only [List.map_append, List.map_map]
              refine List.mem_append.mpr (Or.inr ?_)
              simpa using hd2
          obtain ⟨G2, A2, mono2, pres2⟩ := ih fg _ _ st' hG1 hA1 hb
          exact ⟨G2, A2,
            fun q hq => mono2 q (List.mem_cons_of_mem _ hq),
            fun q v hv =>
              pres2 q v (alookup_insert_preserve st p _ hG hvis q v hv)⟩

theorem goodState_initial : GoodState initialBuildState := by
  refine ⟨?_, ?_, ?_⟩ <;> simp [initialBuildState, keysOf]

theorem almostClosed_initial (ds : List String) :
    AlmostClosed initialBuildState ds := by
  intro e he
  simp [initialBuildState] at he

/-- In a full per-call build, the root is recorded at level 0. -/
theorem root_level_zero_rec (fetch : String → Except String (List (String × String)))
    (fuel : Nat) (root : String) (st' : BuildState)
    (hb : buildGraphBfsRecursive fetch fuel root [] initialBuildState = some st') :
    Option.map NodeRecord.level (alookup st'.graph root) = some 0 := by
  cases fuel with
  | zero => simp [buildGraphBfsRecursive] at hb
  | succ fuel =>
    have hvis : root ∉ initialBuildState.visited := by simp [initialBuildState]
    rcases hfetch : fetch root with e | deps
    · simp only [buildGraphBfsRecursive, if_neg hvis, hfetch,
        Option.some.injEq] at hb
      subst hb
      simp [alookup_setKey_self]
    · simp only [buildGraphBfsRecursive, if_neg hvis, hfetch] at hb
      have hG1 : GoodState
          ⟨setKey initialBuildState.graph root
             ⟨deps, ([] ++ [root]).length - 1, none⟩,
           root :: initialBuildState.visited, initialBuildState.cycles⟩ :=
        goodState_insert initialBuildState root _ _ goodState_initial hvis
      have hA1 : AlmostClosed
          ⟨setKey initialBuildState.graph root
             ⟨deps, ([] ++ [root]).length - 1, none⟩,
           root :: initialBuildState.visited, initialBuildState.cycles⟩
          ((deps.map Prod.fst) ++ []) := by
        intro e2 he2 d hd
        have hpk : root ∉ keysOf initialBuildState.graph := by
          simp [initialBuildState, keysOf]
        rcases mem_setKey_fresh initialBuildState.graph root _ hpk e2 he2
          with he2 | he2
        · simp [initialBuildState] at he2
        · subst he2
          simp only [depKeys] at hd
          exact Or.inr (List.mem_append.mpr (Or.inl hd))
      obtain ⟨_, _, _, _, pres2⟩ :=
        depsStep fuel (recStmt_all fuel) fetch (deps.map Prod.fst) ([] ++ [root])
          _ st' [] hG1 hA1 hb
      have hroot : alookup
          (setKey initialBuildState.graph root
            ⟨deps, ([] ++ [root]).length - 1, none⟩) root =
          some ⟨deps, ([] ++ [root]).length - 1, none⟩ :=
        alookup_setKey_self _ root _
      have := pres2 root _ hroot
      simp [this]

/-- In a full adjacency-file build, the root is recorded at level 0. -/
theorem root_level_zero_file (fg : List (String × List String)) (fuel : Nat)
    (root : String) (st' : BuildState)
    (hb : buildGraphFromFileBfs fg fuel [(root, 0, [])] initialBuildState =
      some st') :
    Option.map NodeRecord.level (alookup st'.graph root) = some 0 := by
  cases fuel with
  | zero => simp [buildGraphFromFileBfs] at hb
  | succ fuel =>
    have hvis : root ∉ initialBuildState.visited := by simp [initialBuildState]
    have hpk : root ∉ keysOf initialBuildState.graph := by
      simp [initialBuildState, keysOf]
    rcases halt : alookup fg root with _ | deps
    · simp only [buildGraphFromFileBfs, if_neg hvis, halt] at hb
      simp only [buildGraphFromFileBfs, Option.some.injEq] at hb
      subst hb
      simp [alookup_setKey_self]
    · simp only [buildGraphFromFileBfs, if_neg hvis, halt] at hb
      have hG1 : GoodState
          ⟨setKey initialBuildState.graph root
             ⟨deps.map (fun d => (d, "*")), 0, none⟩,
           root :: initialBuildState.visited, initialBuildState.cycles⟩ :=
        goodState_insert initialBuildState root _ _ goodState_initial hvis
      have hA1 : AlmostClosed
          ⟨setKey initialBuildState.graph root
             ⟨deps.map (fun d => (d, "*")), 0, none⟩,
           root :: initialBuildState.visited, initialBuildState.cycles⟩
          ((([] : List (String × Nat × List String)) ++
              deps.map (fun d => (d, 0 + 1, [] ++ [root]))).map
            (fun t : String × Nat × List String => t.1)) := by
        intro e2 he2 d hd
        rcases mem_setKey_fresh initialBuildState.graph root _ hpk e2 he2
          with he2 | he2
        · simp [initialBuildState] at he2
        · subst he2
          simp only [depKeys, List.map_map] at hd
          have hd2 : d ∈ deps := by simpa using hd
          refine Or.inr ?_
          simp only [List.nil_append, List.map_map]
          simpa using hd2
      obtain ⟨_, _, _, pres2⟩ := fileBfs_inv fuel fg _ _ st' hG1 hA1 hb
      have hroot : alookup
          (setKey initialBuildState.graph root
            ⟨deps.map (fun d => (d, "*")), 0, none⟩) root =
          some ⟨deps.map (fun d => (d, "*")), 0, none⟩ :=
        alookup_setKey_self _ root _
      have := pres2 root _ hroot
      simp [this]

/-- Every dependency name recorded in some node of `graph` is itself a key of
`graph` (possibly as a node carrying an error). -/
def NoDangling (graph : List (String × NodeRecord)) : Prop :=
  ∀ e ∈ graph, ∀ d ∈ depKeys e.2, d ∈ keysOf graph

theorem alookup_append {α : Type} :
    ∀ (l1 l2 : List (String × α)) (k : String),
      alookup (l1 ++ l2) k =
        match alookup l1 k with
        | some v => some v
        | none => alookup l2 k
  | [], l2, k => rfl
  | (k1, v1) :: rest, l2, k => by
    by_cases hk : k1 = k
    · simp [alookup, hk]
    · simp [alookup, hk, alookup_append rest l2 k]

theorem bucketOf_addToBucket (rd : List (String × List String))
    (dep p d : String) :
    bucketOf (addToBucket rd dep p) d =
      if d = dep then
        (if p ∈ bucketOf rd dep then bucketOf rd dep
         else bucketOf rd dep ++ [p])
      else bucketOf rd d := by
  unfold addToBucket
  rcases halt : alookup rd dep with _ | bucket
  · by_cases hd : d = dep
    · subst hd
      simp [bucketOf, alookup_append, halt, alookup]
    · rcases h2 : alookup rd d with _ | v <;>
        simp [bucketOf, alookup_append, halt, h2, alookup, hd, Ne.symm hd]
  · by_cases hp : p ∈ bucket
    · by_cases hd : d = dep
      · subst hd
        simp [bucketOf, halt, hp]
      · simp [bucketOf, hd, hp]
    · by_cases hd : d = dep
      · subst hd
        simp [bucketOf, halt, hp, alookup_setKey_self]
      · simp [bucketOf, halt, hp, hd,
          alookup_setKey_ne rd dep (bucket ++ [p]) d hd]

theorem bucketOf_depsFold (p : String) :
    ∀ (deps : List (String × String)) (rd : List (String × List String))
      (d : String),
      bucketOf (deps.foldl (fun rd2 dep => addToBucket rd2 dep.1 p) rd) d =
        if d ∈ deps.map Prod.fst ∧ p ∉ bucketOf rd d then bucketOf rd d ++ [p]
        else bucketOf rd d
  | [], rd, d => by simp
  | dep :: rest, rd, d => by
    simp only [List.foldl_cons]
    rw [bucketOf_depsFold p rest (addToBucket rd dep.1 p) d,
      bucketOf_addToBucket]
    by_cases hd : d = dep.1
    · rw [hd]
      simp only [if_pos rfl]
      by_cases hp : p ∈ bucketOf rd dep.1
      · simp [hp]
      · simp [hp, List.mem_append]
    · simp only [if_neg hd]
      by_cases hm : d ∈ List.map Prod.fst rest <;>
        by_cases hp : p ∈ bucketOf rd d <;> simp [hm, hp, hd]

theorem bucketOf_buildReverse_aux :
    ∀ (graph : List (String × NodeRecord)) (rd : List (String × List String))
      (d : String),
      (keysOf graph).Nodup →
      (∀ e ∈ graph, e.1 ∉ bucketOf rd d) →
      bucketOf (graph.foldl
        (fun rd e => e.2.dependencies.foldl
          (fun rd2 dep => addToBucket rd2 dep.1 e.1) rd) rd) d =
        bucketOf rd d ++
          (graph.filter (fun e => decide (d ∈ depKeys e.2))).map Prod.fst
  | [], rd, d, _, _ => by simp
  | e :: rest, rd, d, hnd, hnb => by
    simp only [List.foldl_cons]
    have hne : e.1 ∉ bucketOf rd d := hnb e (List.mem_cons_self _ _)
    have hnd2 : (keysOf rest).Nodup := (List.nodup_cons.mp hnd).2
    have hkey : e.1 ∉ keysOf rest := (List.nodup_cons.mp hnd).1
    have h1 := bucketOf_depsFold e.1 e.2.dependencies rd d
    by_cases hdep : d ∈ depKeys e.2
    · have hb1 : bucketOf
          (e.2.dependencies.foldl (fun rd2 dep => addToBucket rd2 dep.1 e.1) rd)
          d = bucketOf rd d ++ [e.1] := by
        rw [h1, if_pos ⟨hdep, hne⟩]
      rw [bucketOf_buildReverse_aux rest _ d hnd2 ?hb]
      case hb =>
        intro e2 he2
        rw [hb1]
        intro hmem
        rcases List.mem_append.mp hmem with h | h
        · exact hnb e2 (List.mem_cons_of_mem _ he2) h
        · simp at h
          exact hkey (h ▸ List.mem_map_of_mem Prod.fst he2)
      rw [hb1]
      simp [List.filter_cons, hdep, List.append_assoc]
    · have hb1 : bucketOf
          (e.2.dependencies.foldl (fun rd2 dep => addToBucket rd2 dep.1 e.1) rd)
          d = bucketOf rd d := by
        rw [h1, if_neg]
        intro hc
        exact hdep hc.1
      rw [bucketOf_buildReverse_aux rest _ d hnd2 ?hb2]
      case hb2 =>
        intro e2 he2
        rw [hb1]
        exact hnb e2 (List.mem_cons_of_mem _ he2)
      rw [hb1]
      simp [List.filter_cons, hdep]

/-- The reverse-index bucket for `d` is exactly the list of packages, in
graph order, whose dependency mapping mentions `d`. -/
theorem bucketOf_buildReverse (graph : List (String × NodeRecord))
    (hnd : (keysOf graph).Nodup) (d : String) :
    bucketOf (buildReverseDependencies graph) d =
      (graph.filter (fun e => decide (d ∈ depKeys e.2))).map Prod.fst := by
  have h := bucketOf_buildReverse_aux graph [] d hnd
    (by simp [bucketOf, alookup])
  simpa [bucketOf, alookup, buildReverseDependencies] using h

theorem alookup_eq_of_mem_nodup {α : Type} :
    ∀ (l : List (String × α)) (k : String) (v : α),
      (keysOf l).Nodup → (k, v) ∈ l → alookup l k = some v
  | [], k, v, _, h => by simp at h
  | (k1, v1) :: rest, k, v, hnd, h => by
    rcases List.mem_cons.mp h with h | h
    · cases h
      simp [alookup]
    · have hk : k ∈ keysOf rest := List.mem_map_of_mem Prod.fst h
      have hne : k1 ≠ k := by
        intro he
        exact (List.nodup_cons.mp hnd).1 (he ▸ hk)
      simp [alookup, hne,
        alookup_eq_of_mem_nodup rest k v (List.nodup_cons.mp hnd).2 h]

/-- The three-node cyclic adjacency file of claim C2. -/
def cyclicFileGraph : List (String × List String) :=
  [("A", ["B"]), ("B", ["C"]), ("C", ["A"])]

/-- An example source adapter for the per-call modes: the root "R" depends on
"X" and "Y", the lookup for "X" fails, "Y" has no dependencies. -/
def exampleFetch : String → Except String (List (String × String)) :=
  fun p =>
    if p = "R" then Except.ok [("X", "*"), ("Y", "*")]
    else if p = "X" then Except.error "boom"
    else if p = "Y" then Except.ok []
    else Except.error "unknown"

/-- A JSON value is a list of strings (the shape `_load_graph_from_file`
accepts for an adjacency-file value). -/
def IsStringList (v : JsonValue) : Prop :=
  ∃ elems, v = JsonValue.arr elems ∧ ∀ e ∈ elems, ∃ s, e = JsonValue.str s

/-- A structurally invalid adjacency file: the top-level value is not an
object, or some value is not a list of strings. -/
def StructurallyInvalid (j : JsonValue) : Prop :=
  (∀ fields, j ≠ JsonValue.obj fields) ∨
  (∃ fields f, j = JsonValue.obj fields ∧ f ∈ fields ∧ ¬ IsStringList f.2)

/-- C2: on the adjacency file A→B→C→A rooted at "A", the queue-based build
records exactly one cycle, normalized to ["A", "B", "C"], and produces exactly
the three nodes A, B, C at levels 0, 1, 2, each depending on the next and C
depending on A; A is enqueued a second time but only triggers the cycle
record, it is never re-expanded or re-inserted. -/
theorem cyclic_file_build_exact :
    buildGraphFromFileBfs cyclicFileGraph 10 [("A", 0, [])] initialBuildState =
      some ⟨[("A", ⟨[("B", "*")], 0, none⟩),
             ("B", ⟨[("C", "*")], 1, none⟩),
             ("C", ⟨[("A", "*")], 2, none⟩)],
            ["C", "B", "A"],
            [["A", "B", "C"]]⟩ := by
  decide

/-- C3 counterexample: in adjacency-file mode the per-package lookup
`get_direct_dependencies` for a package absent from the loaded mapping does
NOT fail — it returns the empty dependency mapping, with no error. -/
theorem graph_file_lookup_absent_returns_empty :
    getDirectDependenciesGraphFile [("A", ["B"])] "C" = Except.ok [] := rfl

/-- C3 amended: in adjacency-file mode the per-package lookup for an absent
package succeeds with the empty dependency mapping; it is the file-based BFS
builder itself that treats an absent, not-yet-visited package as an error,
inserting a node with empty dependencies and a non-empty error message and
expanding nothing from it (the queue is unchanged). -/
theorem graph_file_absent_package_is_builder_error
    (fg : List (String × List String)) (p : String) (hp : alookup fg p = none) :
    getDirectDependenciesGraphFile fg p = Except.ok [] ∧
    (∀ fuel level path queue st, p ∉ st.visited →
      buildGraphFromFileBfs fg (fuel + 1) ((p, level, path) :: queue) st =
        buildGraphFromFileBfs fg fuel queue
          ⟨setKey st.graph p ⟨[], level, some ("Пакет " ++ p ++ " не найден в графе")⟩,
           p :: st.visited, st.cycles⟩) := by
  constructor
  · simp [getDirectDependenciesGraphFile, hp]
  · intro fuel level path queue st hv
    simp [buildGraphFromFileBfs, hv, hp]

/-- Witness for C3's amended theorem at a concrete input. -/
theorem graph_file_absent_package_witness :
    getDirectDependenciesGraphFile [("A", ["B"])] "C" = Except.ok [] ∧
    buildGraphFromFileBfs [("A", ["B"])] 3 [("C", 0, [])] initialBuildState =
      buildGraphFromFileBfs [("A", ["B"])] 2 []
        ⟨[("C", ⟨[], 0, some "Пакет C не найден в графе"⟩)], ["C"], []⟩ :=
  ⟨(graph_file_absent_package_is_builder_error [("A", ["B"])] "C" (by decide)).1,
   (graph_file_absent_package_is_builder_error [("A", ["B"])] "C" (by decide)).2
     2 0 [] [] initialBuildState (by simp [initialBuildState])⟩

theorem alookup_eq_none_iff {α : Type} :
    ∀ (l : List (String × α)) (k : String), alookup l k = none ↔ k ∉ keysOf l
  | [], k => by simp [alookup, keysOf]
  | (k1, v1) :: rest, k => by
    by_cases hk : k1 = k
    · subst hk
      simp [alookup, keysOf]
    · simp [alookup, hk, keysOf, alookup_eq_none_iff rest k, Ne.symm hk]

/-- When every version's dependency mapping is empty, the descending scan of
`_find_version_with_dependencies` finds nothing. -/
theorem find_none_of_all_empty
    (versions : List (String × List (String × String)))
    (h : ∀ e ∈ versions, e.2 = []) :
    ((versions.map Prod.fst).mergeSort (fun a b => strLe b a)).find?
      (fun v => !((alookup versions v).getD []).isEmpty) = none := by
  apply List.find?_eq_none.mpr
  intro x _
  rcases halt : alookup versions x with _ | deps
  · simp [halt]
  · have hd := h (x, deps) (alookup_mem _ _ _ halt)
    simp only at hd
    simp [halt, hd]

unseal List.merge List.mergeSort in
/-- C4 counterexample: with two known versions "1.0" and "2.0", neither with
dependencies and no "latest" tag, the fallback selects "2.0" — the
lexicographically greatest version string — not the lexicographically first
("1.0" is strictly below "2.0" in the code-point order). -/
theorem version_fallback_counterexample :
    findVersionWithDependencies none [("1.0", []), ("2.0", [])] = some "2.0" ∧
    strLe "1.0" "2.0" = true ∧ ("1.0" : String) ≠ "2.0" :=
  ⟨by decide, by decide, by decide⟩

/-- C4 amended: when no version of the package has a non-empty dependency
mapping, version selection falls back to the "latest" version if it is
non-empty and exists among the known versions, otherwise to the
lexicographically GREATEST version string (the head of the descending sort),
otherwise reports no dependencies (`none`).  The second conjunct proves the
fallback head really is the maximum in the code-point order. -/
theorem version_fallback_greatest (latest : Option String)
    (versions : List (String × List (String × String)))
    (h : ∀ e ∈ versions, e.2 = []) :
    findVersionWithDependencies latest versions =
      (match latest with
       | some l =>
           if l = "" then
             ((versions.map Prod.fst).mergeSort (fun a b => strLe b a)).head?
           else if l ∈ versions.map Prod.fst then some l
           else ((versions.map Prod.fst).mergeSort (fun a b => strLe b a)).head?
       | none =>
           ((versions.map Prod.fst).mergeSort (fun a b => strLe b a)).head?) ∧
    (∀ m, ((versions.map Prod.fst).mergeSort (fun a b => strLe b a)).head? = some m →
      ∀ v ∈ versions.map Prod.fst, strLe v m = true) := by
  constructor
  · rcases latest with _ | l
    · simp only [findVersionWithDependencies, find_none_of_all_empty versions h]
    · by_cases hl : l = ""
      · simp only [findVersionWithDependencies, hl,
          find_none_of_all_empty versions h]
        simp
      · by_cases hmem : l ∈ versions.map Prod.fst
        · rcases halt : alookup versions l with _ | deps
          · exact absurd ((alookup_eq_none_iff versions l).mp halt)
              (by simpa [keysOf] using hmem)
          · have hd := h (l, deps) (alookup_mem _ _ _ halt)
            simp only at hd
            simp only [findVersionWithDependencies, hl, halt, hd,
              find_none_of_all_empty versions h]
            simp [hmem, halt, hd]
        · have halt : alookup versions l = none :=
            (alookup_eq_none_iff versions l).mpr (by simpa [keysOf] using hmem)
          simp only [findVersionWithDependencies, hl, halt,
            find_none_of_all_empty versions h]
          simp [hmem, halt]
  · intro m hm v hv
    have hsorted :
        (List.mergeSort (versions.map Prod.fst) (fun a b => strLe b a)).Pairwise
          (fun a b => strLe b a = true) := by
      have := @List.sorted_mergeSort String (fun a b => strLe b a)
        (fun a b c h1 h2 => strLe_trans c b a h2 h1)
        (fun a b => strLe_total b a) (versions.map Prod.fst)
      simpa using this
    rcases List.head?_eq_some_iff.mp hm with ⟨rest, hrest⟩
    have hvmem : v ∈ List.mergeSort (versions.map Prod.fst) (fun a b => strLe b a) :=
      List.mem_mergeSort.mpr hv
    rw [hrest] at hvmem hsorted
    rcases List.mem_cons.mp hvmem with hvm | hvrest
    · subst hvm; exact strLe_refl v
    · exact (List.pairwise_cons.mp hsorted).1 v hvrest

unseal List.merge List.mergeSort in
/-- Witness for C4's amended theorem at a concrete input. -/
theorem version_fallback_greatest_witness :
    findVersionWithDependencies (some "zz") [("1.0", []), ("2.0", [])] =
      some "2.0" ∧ strLe "1.0" "2.0" = true :=
  ⟨by
    rw [(version_fallback_greatest (some "zz") [("1.0", []), ("2.0", [])]
      (by decide)).1]
    decide,
   (version_fallback_greatest (some "zz") [("1.0", []), ("2.0", [])]
      (by decide)).2 "2.0" (by decide) "1.0" (by decide)⟩

/-- C5: in the per-call traversal, an adapter failure for one package is
absorbed: the package is marked visited and recorded with an empty dependency
mapping, its level, and the error message; nothing is recursed from it and no
error escapes (the build returns a state, `some`).  The second conjunct shows
a whole build in which the failing node "X" is absorbed while its sibling "Y"
is still traversed. -/
theorem adapter_error_absorbed :
    (∀ fetch fuel package path st e, package ∉ st.visited →
      fetch package = Except.error e →
      buildGraphBfsRecursive fetch (fuel + 1) package path st =
        some ⟨setKey st.graph package ⟨[], (path ++ [package]).length - 1, some e⟩,
              package :: st.visited, st.cycles⟩) ∧
    buildGraphBfsRecursive exampleFetch 5 "R" [] initialBuildState =
      some ⟨[("R", ⟨[("X", "*"), ("Y", "*")], 0, none⟩),
             ("X", ⟨[], 1, some "boom"⟩),
             ("Y", ⟨[], 1, none⟩)],
            ["Y", "X", "R"], []⟩ := by
  constructor
  · intro fetch fuel package path st e hv hf
    simp [buildGraphBfsRecursive, hv, hf]
  · decide

/-- Witness for C5's general conjunct at a concrete input. -/
theorem adapter_error_absorbed_witness :
    buildGraphBfsRecursive (fun _ => Except.error "boom") 1 "p" [] initialBuildState =
      some ⟨[("p", ⟨[], 0, some "boom"⟩)], ["p"], []⟩ :=
  adapter_error_absorbed.1 (fun _ => Except.error "boom") 0 "p" [] initialBuildState
    "boom" (by simp [initialBuildState]) rfl

/-- C9: the simplified (edges-only) export of an unbuilt (empty) graph is the
empty string, and the annotated export of a graph holding exactly one node
with no dependencies emits exactly one node-declaration line
(`nodeDeclLines`, the node declarations of `generateGraphviz`) and zero
edge-declaration lines (`edgeDeclLines`). -/
theorem export_empty_and_single_node :
    (∀ root, generateSimpleGraphviz [] root = "") ∧
    (∀ name lvl err root,
      (nodeDeclLines [(name, ⟨[], lvl, err⟩)] root).length = 1 ∧
      edgeDeclLines [(name, ⟨[], lvl, err⟩)] = []) := by
  refine ⟨fun root => rfl, fun name lvl err root => ⟨?_, rfl⟩⟩
  simp [nodeDeclLines]

/-- C1: for every dependency graph with one record per package name (as every
build produces), the derived reverse index is the exact inverse of the
dependency edges: `p` is in the bucket for `d` iff `p`'s record lists `d` as
a dependency key; and each bucket is duplicate-free and lists its members in
graph (first-occurrence) order — it is exactly the ordered filter of the
graph entries whose dependencies mention `d`. -/
theorem reverse_index_exact_inverse (graph : List (String × NodeRecord))
    (hnd : (keysOf graph).Nodup) :
    (∀ d p, p ∈ bucketOf (buildReverseDependencies graph) d ↔
      ∃ node, alookup graph p = some node ∧ d ∈ depKeys node) ∧
    (∀ d, (bucketOf (buildReverseDependencies graph) d).Nodup ∧
      bucketOf (buildReverseDependencies graph) d =
        (graph.filter (fun e => decide (d ∈ depKeys e.2))).map Prod.fst) := by
  have hbkt := bucketOf_buildReverse graph hnd
  constructor
  · intro d p
    rw [hbkt d]
    constructor
    · intro hp
      rcases List.mem_map.mp hp with ⟨e, he, hfst⟩
      have hef := List.mem_filter.mp he
      refine ⟨e.2, ?_, by simpa using hef.2⟩
      have hmem : (p, e.2) ∈ graph := by
        have he2 : e = (p, e.2) := by
          obtain ⟨q, node⟩ := e
          simp only at hfst
          simp [hfst]
        rw [← he2]
        exact hef.1
      exact alookup_eq_of_mem_nodup graph p e.2 hnd hmem
    · rintro ⟨node, hlk, hd⟩
      exact List.mem_map.mpr ⟨(p, node),
        List.mem_filter.mpr ⟨alookup_mem graph p node hlk, by simpa using hd⟩,
        rfl⟩
  · intro d
    refine ⟨?_, hbkt d⟩
    rw [hbkt d]
    exact List.Nodup.sublist
      (List.Sublist.map Prod.fst (List.filter_sublist graph)) hnd

/-- Witness for C1 at a concrete graph: A and C both depend on B. -/
theorem reverse_index_exact_inverse_witness :
    (bucketOf (buildReverseDependencies
      [("A", ⟨[("B", "*")], 0, none⟩), ("C", ⟨[("B", "*")], 1, none⟩)])
      "B").Nodup ∧
    bucketOf (buildReverseDependencies
      [("A", ⟨[("B", "*")], 0, none⟩), ("C", ⟨[("B", "*")], 1, none⟩)]) "B" =
      ([("A", ⟨[("B", "*")], 0, none⟩),
        ("C", ⟨[("B", "*")], 1, none⟩)].filter
        (fun e => decide ("B" ∈ depKeys e.2))).map Prod.fst :=
  (reverse_index_exact_inverse
    [("A", ⟨[("B", "*")], 0, none⟩), ("C", ⟨[("B", "*")], 1, none⟩)]
    (by decide)).2 "B"

theorem mapM_except_error {α β : Type} (f : α → Except String β) :
    ∀ (l : List α) (x : α), x ∈ l → (∃ e, f x = Except.error e) →
      ∃ e2, l.mapM f = Except.error e2
  | [], x, hx, _ => by simp at hx
  | a :: as, x, hx, hfe => by
    rw [List.mapM_cons]
    rcases List.mem_cons.mp hx with rfl | hx
    · rcases hfe with ⟨e, he⟩
      rw [he]
      exact ⟨e, rfl⟩
    · rcases hfa : f a with ea | b
      · exact ⟨ea, rfl⟩
      · rcases mapM_except_error f as x hx hfe with ⟨e2, he2⟩
        rw [he2]
        exact ⟨e2, rfl⟩

theorem validateDeps_error (package : String) (v : JsonValue)
    (hv : ¬ IsStringList v) :
    ∃ e, validateDeps package v = Except.error e := by
  cases v with
  | arr elems =>
    have hbad : ∃ x ∈ elems, ∀ s, x ≠ JsonValue.str s := by
      by_contra hc
      push_neg at hc
      exact hv ⟨elems, rfl, hc⟩
    rcases hbad with ⟨x, hx, hxs⟩
    apply mapM_except_error _ elems x hx
    cases x with
    | str s => exact absurd rfl (hxs s)
    | null => exact ⟨_, rfl⟩
    | bool b => exact ⟨_, rfl⟩
    | num n => exact ⟨_, rfl⟩
    | arr l => exact ⟨_, rfl⟩
    | obj fs => exact ⟨_, rfl⟩
  | null => exact ⟨_, rfl⟩
  | bool b => exact ⟨_, rfl⟩
  | num n => exact ⟨_, rfl⟩
  | str s => exact ⟨_, rfl⟩
  | obj fs => exact ⟨_, rfl⟩

theorem obj_invalid_field_error (fields : List (String × JsonValue))
    (f : String × JsonValue) (hf : f ∈ fields) (hv : ¬ IsStringList f.2) :
    ∃ e, loadGraphFromFile (JsonValue.obj fields) = Except.error e := by
  apply mapM_except_error _ fields f hf
  rcases validateDeps_error f.1 f.2 hv with ⟨e, he⟩
  exact ⟨e, by rw [he]; rfl⟩

/-- C6: a structurally invalid adjacency file — top-level value not an
object, or some value not a list of strings — makes `_load_graph_from_file`
raise a `GraphError`, and `build_dependency_graph_bfs` in `graph_file` mode
propagates it: the whole build aborts with an error carrying no partial
dependency graph. -/
theorem invalid_graph_file_fatal (j : JsonValue) (h : StructurallyInvalid j) :
    isError (loadGraphFromFile j) = true ∧
    (∀ root fuel,
      isError (buildDependencyGraphBfsGraphFile root j fuel) = true) := by
  have hload : ∃ e, loadGraphFromFile j = Except.error e := by
    rcases h with h | ⟨fields, f, rfl, hf, hv⟩
    · cases j with
      | obj fields => exact absurd rfl (h fields)
      | null => exact ⟨_, rfl⟩
      | bool b => exact ⟨_, rfl⟩
      | num n => exact ⟨_, rfl⟩
      | str s => exact ⟨_, rfl⟩
      | arr l => exact ⟨_, rfl⟩
    · exact obj_invalid_field_error fields f hf hv
  rcases hload with ⟨e, he⟩
  refine ⟨by rw [he]; rfl, fun root fuel => ?_⟩
  unfold buildDependencyGraphBfsGraphFile
  rw [he]
  rfl

/-- Witness for C6: an adjacency object whose value is a number. -/
theorem invalid_graph_file_fatal_witness :
    isError (loadGraphFromFile (JsonValue.obj [("A", JsonValue.num 3)])) =
      true ∧
    isError (buildDependencyGraphBfsGraphFile "A"
      (JsonValue.obj [("A", JsonValue.num 3)]) 5) = true :=
  ⟨(invalid_graph_file_fatal (JsonValue.obj [("A", JsonValue.num 3)])
      (Or.inr ⟨[("A", JsonValue.num 3)], ("A", JsonValue.num 3), rfl,
        List.mem_cons_self _ _,
        fun hs => by
          rcases hs with ⟨elems, he, _⟩
          exact JsonValue.noConfusion he⟩)).1,
   (invalid_graph_file_fatal (JsonValue.obj [("A", JsonValue.num 3)])
      (Or.inr ⟨[("A", JsonValue.num 3)], ("A", JsonValue.num 3), rfl,
        List.mem_cons_self _ _,
        fun hs => by
          rcases hs with ⟨elems, he, _⟩
          exact JsonValue.noConfusion he⟩)).2 "A" 5⟩

/-- C7: in both traversal strategies, every completed build step starting
from an invariant-satisfying state preserves the invariant `GoodState`
(the graph holds exactly one record per package name, and its keys coincide
with the visited set) and never changes a record after its first insertion
(first-discovery wins: every existing binding still looks up to the very same
record afterwards); and a full build from the empty initial state records the
root package at level 0. -/
theorem build_first_discovery_wins :
    (∀ (fetch : String → Except String (List (String × String))) fuel package
        path st st' ds, GoodState st → AlmostClosed st ds →
      buildGraphBfsRecursive fetch fuel package path st = some st' →
      GoodState st' ∧
        ∀ q v, alookup st.graph q = some v → alookup st'.graph q = some v) ∧
    (∀ (fg : List (String × List String)) fuel queue st st', GoodState st →
      AlmostClosed st (queue.map (fun t => t.1)) →
      buildGraphFromFileBfs fg fuel queue st = some st' →
      GoodState st' ∧
        ∀ q v, alookup st.graph q = some v → alookup st'.graph q = some v) ∧
    (∀ (fetch : String → Except String (List (String × String))) fuel root st',
      buildGraphBfsRecursive fetch fuel root [] initialBuildState = some st' →
      Option.map NodeRecord.level (alookup st'.graph root) = some 0) ∧
    (∀ (fg : List (String × List String)) fuel root st',
      buildGraphFromFileBfs fg fuel [(root, 0, [])] initialBuildState =
        some st' →
      Option.map NodeRecord.level (alookup st'.graph root) = some 0) := by
  refine ⟨?_, ?_, root_level_zero_rec, root_level_zero_file⟩
  · intro fetch fuel package path st st' ds hG hA hb
    obtain ⟨G2, _, _, _, pres2⟩ :=
      recStmt_all fuel fetch package path st st' ds hG hA hb
    exact ⟨G2, pres2⟩
  · intro fg fuel queue st st' hG hA hb
    obtain ⟨G2, _, _, pres2⟩ := fileBfs_inv fuel fg queue st st' hG hA hb
    exact ⟨G2, pres2⟩

/-- Witness for C7 at a concrete build (the `exampleFetch` run). -/
theorem build_first_discovery_wins_witness :
    GoodState ⟨[("R", ⟨[("X", "*"), ("Y", "*")], 0, none⟩),
                ("X", ⟨[], 1, some "boom"⟩), ("Y", ⟨[], 1, none⟩)],
               ["Y", "X", "R"], []⟩ ∧
    Option.map NodeRecord.level
      (alookup [("R", ⟨[("X", "*"), ("Y", "*")], 0, none⟩),
                ("X", ⟨[], 1, some "boom"⟩), ("Y", ⟨[], 1, none⟩)] "R") =
      some 0 :=
  ⟨(build_first_discovery_wins.1 exampleFetch 5 "R" [] initialBuildState
      ⟨[("R", ⟨[("X", "*"), ("Y", "*")], 0, none⟩),
        ("X", ⟨[], 1, some "boom"⟩), ("Y", ⟨[], 1, none⟩)],
       ["Y", "X", "R"], []⟩ [] goodState_initial (almostClosed_initial [])
      (by decide)).1,
   build_first_discovery_wins.2.2.1 exampleFetch 5 "R"
     ⟨[("R", ⟨[("X", "*"), ("Y", "*")], 0, none⟩),
       ("X", ⟨[], 1, some "boom"⟩), ("Y", ⟨[], 1, none⟩)],
      ["Y", "X", "R"], []⟩ (by decide)⟩

/-- C8: in both traversal strategies, a completed build from the empty
initial state leaves no dependency name dangling: every name appearing as a
dependency key of some node record is itself a key of the graph (an absent or
failing package is present as a node carrying an error record), which in
particular establishes the claim's disjunction. -/
theorem build_no_dangling :
    (∀ (fetch : String → Except String (List (String × String))) fuel root st',
      buildGraphBfsRecursive fetch fuel root [] initialBuildState = some st' →
      NoDangling st'.graph) ∧
    (∀ (fg : List (String × List String)) fuel root st',
      buildGraphFromFileBfs fg fuel [(root, 0, [])] initialBuildState =
        some st' →
      NoDangling st'.graph) := by
  constructor
  · intro fetch fuel root st' hb
    obtain ⟨G2, A2, _, _, _⟩ :=
      recStmt_all fuel fetch root [] initialBuildState st' []
        goodState_initial (almostClosed_initial []) hb
    intro e he d hd
    rcases A2 e he d hd with h | h
    · exact G2.2.1 d h
    · simp at h
  · intro fg fuel root st' hb
    obtain ⟨G2, A2, _, _⟩ :=
      fileBfs_inv fuel fg [(root, 0, [])] initialBuildState st'
        goodState_initial (almostClosed_initial _) hb
    intro e he d hd
    rcases A2 e he d hd with h | h
    · exact G2.2.1 d h
    · simp at h

/-- Witness for C8 at a concrete build (the cyclic adjacency file of C2). -/
theorem build_no_dangling_witness :
    NoDangling [("A", ⟨[("B", "*")], 0, none⟩),
                ("B", ⟨[("C", "*")], 1, none⟩),
                ("C", ⟨[("A", "*")], 2, none⟩)] :=
  build_no_dangling.2 cyclicFileGraph 10 "A"
    ⟨[("A", ⟨[("B", "*")], 0, none⟩),
      ("B", ⟨[("C", "*")], 1, none⟩),
      ("C", ⟨[("A", "*")], 2, none⟩)],
     ["C", "B", "A"], [["A", "B", "C"]]⟩ (by decide)

/-- C10: the annotated export `generate_graphviz` also returns the empty
string when the dependency graph has not been built (is empty). -/
theorem annotated_export_empty_graph :
    ∀ root, generateGraphviz [] root = "" := fun _ => rfl

end DepViz
